import Mathlib

/-!
Shallow embedding of mico's message-routing core: the context compactor
(`src/mico/compact.py`), the inbound-envelope worker (`src/mico/bus.py`),
the scheduler job executor (`src/mico/scheduler.py`), the Telegram channel
adapter's send/split (`src/mico/channels.py`), and the turn persistence step
(`src/mico/agent.py`).

Conventions: Python strings are Lean `String`s, except the outbound message
splitter, which manipulates slices and is modelled over `List Char`.
`tiktoken` is treated as not installed, so `count_tokens` is the documented
fallback path `max 1 ⌈len/4⌉`.  Side effects (store writes, queue publishes,
future resolution) are returned as data.  Python exceptions are `Except`
errors.  Token thresholds are `Nat`s: the Python call sites only ever pass
positive literals, and `<= 0` on that domain is `= 0`.
-/

namespace Mico

/-- Python `count_tokens` (compact.py): 0 for empty text, else the tokenizer-free
fallback `max(1, ceil(len(text)/4))`. -/
def count_tokens (text : String) : Nat :=
  if text.length = 0 then 0 else max 1 ((text.length + 3) / 4)

/-- Python `message_tokens` (compact.py): `4 + count_tokens(role) + count_tokens(content)`. -/
def message_tokens (role content : String) : Nat :=
  4 + count_tokens role + count_tokens content

/-- One row of the per-agent message log, as returned by
`storage.list_messages_with_order` (ascending `(timestamp, insert_order)`).
`agent_id`, `metadata` and `insert_order` are bookkeeping the compactor never
reads and are omitted. -/
structure MessageRecord where
  id : String
  timestamp : Nat
  role : String
  content : String
deriving DecidableEq

/-- Per-message cost, `message_tokens(str(row.role), str(row.content or ''))`. -/
def msgCost (row : MessageRecord) : Nat :=
  message_tokens row.role row.content

/-- Total cost of a list of rows. -/
def logCost (rows : List MessageRecord) : Nat :=
  (rows.map msgCost).sum

/-- The `for row in reversed(rows)` loop of `select_recent_messages_for_context`.
It is fed the reversed log (newest first); consing each taken row onto
`selected` rebuilds chronological order, which is the Python
`selected.reverse()` at the end. -/
def selectGo (token_budget : Nat) : List MessageRecord → List MessageRecord → Nat → List MessageRecord
  | [], selected, _ => selected
  | row :: rest, selected, total =>
    let tokens := msgCost row
    if selected ≠ [] ∧ token_budget < total + tokens then selected
    else selectGo token_budget rest (row :: selected) (total + tokens)

/-- Python `select_recent_messages_for_context` (compact.py): walk the log
newest→oldest, accumulating cost; break before a message that would exceed the
budget, except the first message taken is always included. -/
def select_recent_messages_for_context (rows : List MessageRecord) (token_budget : Nat) : List MessageRecord :=
  selectGo token_budget rows.reverse [] 0

/-- The descending index loop of `_find_recent_tail_start` (compact.py).  It is
fed the reversed token list (newest first); `n` is `len(token_counts)`.  The
Python state is `(tail_start, tail_tokens)` with `tail_start` initially `n`;
the element under scrutiny always sits at index `tail_start - 1`, so the
`tail_start = index` assignment is `tail_start - 1` here. -/
def tailLoop (keep_recent_tokens n : Nat) : List Nat → Nat → Nat → Nat × Nat
  | [], tail_start, tail_tokens => (tail_start, tail_tokens)
  | c :: rest, tail_start, tail_tokens =>
    if tail_start < n ∧ keep_recent_tokens < tail_tokens + c then (tail_start, tail_tokens)
    else tailLoop keep_recent_tokens n rest (tail_start - 1) (tail_tokens + c)

/-- Python `_find_recent_tail_start` (compact.py): longest-suffix scan from the newest
message backward; returns `(tail_start, tail_tokens)`. -/
def _find_recent_tail_start (token_counts : List Nat) (keep_recent_tokens : Nat) : Nat × Nat :=
  if token_counts.isEmpty then (0, 0)
  else tailLoop keep_recent_tokens token_counts.length token_counts.reverse token_counts.length 0

/-- The `while remove_end < tail_start and compacted_tokens < tokens_to_remove`
loop of `compact_conversation_if_needed`; it is fed `token_counts[:tail_start]`
so list exhaustion is the `remove_end < tail_start` bound. -/
def removalGo (tokens_to_remove : Nat) : List Nat → Nat → Nat → Nat × Nat
  | [], remove_end, compacted_tokens => (remove_end, compacted_tokens)
  | c :: rest, remove_end, compacted_tokens =>
    if compacted_tokens < tokens_to_remove then
      removalGo tokens_to_remove rest (remove_end + 1) (compacted_tokens + c)
    else (remove_end, compacted_tokens)

/-- Dataclass `CompactionResult` (compact.py). -/
structure CompactionResult where
  triggered : Bool
  total_tokens_before : Nat
  total_tokens_after : Nat
  compacted_messages : Nat
  compacted_tokens : Nat
  kept_recent_messages : Nat
  kept_recent_tokens : Nat
  memory_name : Option String
deriving DecidableEq

/-- The observable outcome of one `compact_conversation_if_needed` call: the
returned result plus the store effects it performed (`delete_messages` ids,
whether `upsert_memory` ran) and the message log left behind. -/
structure CompactionEffects where
  result : CompactionResult
  deleted_message_ids : List String
  memory_upserted : Bool
  remaining : List MessageRecord
deriving DecidableEq

/-- The body of `compact_conversation_if_needed` after the `ValueError`
guards, over the already-listed rows.  `created_at` is the `now()` timestamp
used in the archive memory's name. -/
def compactCore (rows : List MessageRecord)
    (threshold_tokens target_tokens_after keep_recent_tokens created_at : Nat) :
    CompactionEffects :=
  match rows with
  | [] => ⟨⟨false, 0, 0, 0, 0, 0, 0, none⟩, [], false, []⟩
  | _ :: _ =>
    let token_counts := rows.map msgCost
    let total_before := token_counts.sum
    let tail := _find_recent_tail_start token_counts keep_recent_tokens
    if total_before < threshold_tokens then
      ⟨⟨false, total_before, total_before, 0, 0, (rows.drop tail.1).length, tail.2, none⟩,
        [], false, rows⟩
    else
      let tokens_to_remove := total_before - target_tokens_after
      let removal := removalGo tokens_to_remove (token_counts.take tail.1) 0 0
      let remove_end := removal.1
      let compacted_tokens := removal.2
      let total_after := total_before - compacted_tokens
      match rows.take remove_end with
      | [] =>
        ⟨⟨false, total_before, total_after, 0, 0, (rows.drop remove_end).length,
            (token_counts.drop remove_end).sum, none⟩,
          [], false, rows⟩
      | first :: more =>
        ⟨⟨true, total_before, total_after, (first :: more).length, compacted_tokens,
            (rows.drop remove_end).length, (token_counts.drop remove_end).sum,
            some ("conversation_compaction_" ++ toString created_at ++ "_" ++ first.id.take 8)⟩,
          (first :: more).map MessageRecord.id, true, rows.drop remove_end⟩

/-- Python `compact_conversation_if_needed` (compact.py): `ValueError` guards, then
the trigger/removal algorithm.  On `Nat` thresholds `<= 0` is `= 0`. -/
def compact_conversation_if_needed (rows : List MessageRecord)
    (threshold_tokens target_tokens_after keep_recent_tokens created_at : Nat) :
    Except String CompactionEffects :=
  if threshold_tokens = 0 ∨ target_tokens_after = 0 ∨ keep_recent_tokens = 0 then
    Except.error "Token thresholds must be positive."
  else if threshold_tokens < target_tokens_after then
    Except.error "target_tokens_after must be <= threshold_tokens."
  else
    Except.ok (compactCore rows threshold_tokens target_tokens_after keep_recent_tokens created_at)

/-- Python blank check: `s.strip()` is falsy iff every character is
whitespace (vacuously true for the empty string). -/
def isBlank (s : String) : Bool := s.toList.all Char.isWhitespace

/-- Normalized inbound event (messages.py `InboundMessage`); `message_id`,
`timestamp` and `metadata` are bookkeeping defaults the worker only forwards. -/
structure InboundMessage where
  agent_id : String
  channel : String
  sender_id : String
  chat_id : String
  content : String
deriving DecidableEq

/-- Normalized outbound event (messages.py `OutboundMessage`); the generated
`message_id`, `reply_to_message_id`, `timestamp` and `metadata` defaults are
omitted bookkeeping. -/
structure OutboundMessage where
  agent_id : String
  channel : String
  chat_id : String
  content : String
deriving DecidableEq

/-- Bus envelope (bus.py `InboundEnvelope`).  The `asyncio.Future` response
slot is modelled by two flags: whether a future was allocated
(`wait_response=True`) and whether it is already resolved. -/
structure InboundEnvelope where
  id : String
  message : InboundMessage
  enqueued_at : Nat
  has_response_future : Bool
  response_future_done : Bool
deriving DecidableEq

/-- The `response` variable of `AgentMessageWorker._process_envelope`: the
turn's text on success, the synthesized
`'Error while processing your message: {exc}'` string when `Mico.run`
raised. -/
def turn_response : Except String String → String
  | Except.ok r => r
  | Except.error exc => "Error while processing your message: " ++ exc

/-- Observable effects of one `_process_envelope` call: the outbound message
published (if any) and the value the response future was resolved with (if
any). -/
structure ProcessEffects where
  published : Option OutboundMessage
  future_set : Option String
deriving DecidableEq

/-- Python `AgentMessageWorker._process_envelope` (bus.py), with the awaited
`Mico.run` outcome passed in as data: exceptions are converted to an error
string, a non-blank result is published as an `OutboundMessage`, and an
allocated, unresolved response future is resolved with the result. -/
def _process_envelope (envelope : InboundEnvelope) (run_result : Except String String) :
    ProcessEffects :=
  let response := turn_response run_result
  let published : Option OutboundMessage :=
    if isBlank response then none
    else some ⟨envelope.message.agent_id, envelope.message.channel,
      envelope.message.chat_id, response⟩
  let future_set : Option String :=
    if envelope.has_response_future && !envelope.response_future_done then some response
    else none
  ⟨published, future_set⟩

/-- The fixed `max_len = 4000` of `_split_message` (channels.py); no caller
overrides it. -/
def telegram_max_len : Nat := 4000

/-- Helper for Python `str.rfind`: index of the last occurrence of `c` in
`l` starting from offset `i`, `none` standing for Python's `-1`. -/
def rfindGo : List Char → Char → Nat → Option Nat
  | [], _, _ => none
  | a :: rest, c, i =>
    match rfindGo rest c (i + 1) with
    | some j => some j
    | none => if a = c then some i else none

/-- Python `candidate.rfind(c)`, with `none` for `-1`. -/
def rfind (l : List Char) (c : Char) : Option Nat := rfindGo l c 0

/-- The cut-point choice of `_split_message`: last newline in the candidate
window, else last space, else a hard cut at `max_len`; Python's `cut <= 0`
check turns an index of 0 (or no hit) into the hard cut. -/
def cutPoint (candidate : List Char) (max_len : Nat) : Nat :=
  match rfind candidate '\n' with
  | some i => if i = 0 then max_len else i
  | none =>
    match rfind candidate ' ' with
    | some i => if i = 0 then max_len else i
    | none => max_len

/-- The `while remaining:` loop of `_split_message` (channels.py):
`remaining[cut:].lstrip()` is `dropWhile isWhitespace` after `drop cut`. -/
def splitLoop (remaining : List Char) : List (List Char) :=
  if h0 : remaining = [] then []
  else if h1 : remaining.length ≤ telegram_max_len then [remaining]
  else
    remaining.take (cutPoint (remaining.take telegram_max_len) telegram_max_len) ::
      splitLoop ((remaining.drop
        (cutPoint (remaining.take telegram_max_len) telegram_max_len)).dropWhile
          Char.isWhitespace)
termination_by remaining.length
decreasing_by
  have hcut : 1 ≤ cutPoint (remaining.take telegram_max_len) telegram_max_len := by
    unfold cutPoint
    cases rfind (remaining.take telegram_max_len) '\n' with
    | some i =>
      dsimp only
      split
      · decide
      · omega
    | none =>
      dsimp only
      cases rfind (remaining.take telegram_max_len) ' ' with
      | some i =>
        dsimp only
        split
        · decide
        · omega
      | none => decide
  have hw : ((remaining.drop
        (cutPoint (remaining.take telegram_max_len) telegram_max_len)).dropWhile
          Char.isWhitespace).length
      ≤ (remaining.drop (cutPoint (remaining.take telegram_max_len) telegram_max_len)).length :=
    (List.dropWhile_suffix Char.isWhitespace).length_le
  have hd := List.length_drop (cutPoint (remaining.take telegram_max_len) telegram_max_len)
    remaining
  omega

/-- Python `_split_message` (channels.py): text of length at most 4000 is one chunk;
longer text is chunked at the cut points. -/
def _split_message (content : List Char) : List (List Char) :=
  if content.length ≤ telegram_max_len then [content]
  else splitLoop content

/-- Spec-side notion of the last occurrence of a character: the greatest
index of the window holding `c`, independent of the implementation's
right-to-left scan. -/
def lastIndexOfChar (w : List Char) (c : Char) : Option Nat :=
  ((List.range w.length).filter (fun i => w[i]? == some c)).max?

/-- Spec-side cut-point rule (amended C9), to be compared with the source's
`cutPoint`: the last newline of the window when it sits at a positive index;
else — only when the window holds no newline at all — the last space when it
sits at a positive index; else the hard cut at `limit`.  An index-0 hit is
unusable as a cut (it would yield an empty chunk) and falls directly to the
hard cut, mirroring the code's `cut <= 0` guard. -/
def specCutPoint (w : List Char) (limit : Nat) : Nat :=
  match lastIndexOfChar w '\n' with
  | some i => if i = 0 then limit else i
  | none =>
    match lastIndexOfChar w ' ' with
    | some i => if i = 0 then limit else i
    | none => limit

/-- Spec-side splitting loop (amended C9): emit the text up to the spec cut
point of the 4000-character window, strip the whitespace at the boundary,
and continue; a remainder within the limit is the final chunk. -/
def specSplitGo (remaining : List Char) : List (List Char) :=
  if _h0 : remaining = [] then []
  else if _h1 : remaining.length ≤ 4000 then [remaining]
  else
    remaining.take (specCutPoint (remaining.take 4000) 4000) ::
      specSplitGo ((remaining.drop
        (specCutPoint (remaining.take 4000) 4000)).dropWhile Char.isWhitespace)
termination_by remaining.length
decreasing_by
  have hcut : 1 ≤ specCutPoint (remaining.take 4000) 4000 := by
    unfold specCutPoint
    cases lastIndexOfChar (remaining.take 4000) '\n' with
    | some i =>
      dsimp only
      split
      · decide
      · omega
    | none =>
      dsimp only
      cases lastIndexOfChar (remaining.take 4000) ' ' with
      | some i =>
        dsimp only
        split
        · decide
        · omega
      | none => decide
  have hw : (((remaining.drop (specCutPoint (remaining.take 4000) 4000)).dropWhile
        Char.isWhitespace).length)
      ≤ (remaining.drop (specCutPoint (remaining.take 4000) 4000)).length :=
    (List.dropWhile_suffix Char.isWhitespace).length_le
  have hd := List.length_drop (specCutPoint (remaining.take 4000) 4000) remaining
  omega

/-- Spec-side splitter (amended C9): a text within the 4000-character limit is
one chunk equal to the input; longer text is split by `specSplitGo`. -/
def specSplitMessage (content : List Char) : List (List Char) :=
  if content.length ≤ 4000 then [content] else specSplitGo content

/-- The identity of one `TelegramChannelAdapter` (channels.py): its
`agent_id` and whether `self._app` is set (the adapter is running).  Its
channel is the fixed name `telegram` it is registered under. -/
structure TelegramAdapterState where
  agent_id : String
  app_running : Bool
deriving DecidableEq

/-- Python `TelegramChannelAdapter.send` (channels.py) up to its delivery effect:
the validation raises (`Except.error`) exactly as the Python does, and a
successful call delivers the split chunks of the content in order. -/
def TelegramChannelAdapter_send (adapter : TelegramAdapterState) (message : OutboundMessage) :
    Except String (List (List Char)) :=
  if message.agent_id ≠ adapter.agent_id then
    Except.error ("Adapter agent mismatch (expected " ++ adapter.agent_id
      ++ ", got " ++ message.agent_id ++ ").")
  else if adapter.app_running = false then
    Except.error ("Telegram adapter for agent " ++ adapter.agent_id ++ " is not running.")
  else
    Except.ok (_split_message message.content.toList)

/-- Agent row (storage.py `AgentRecord`); `runtime`, `metadata` and the
timestamps are bookkeeping the scheduler never reads. -/
structure AgentRecord where
  id : String
  name : String
  status : String
deriving DecidableEq

/-- Scheduled job row (storage.py `ScheduledJobRecord`). -/
structure ScheduledJobRecord where
  id : String
  agent_id : String
  description : String
  instruction : String
  job_type : String
  cron_expr : Option String
  next_run_at : Nat
  last_run_at : Option Nat
  status : String
deriving DecidableEq

/-- Store effect of one `_execute_job` call on its job row: either
`delete_scheduled_job` or `update_job_after_run` with the written fields. -/
inductive JobEffect where
  | delete_job : JobEffect
  | update_job (next_run_at : Option Nat) (status : String) (last_run_at : Nat) : JobEffect
deriving DecidableEq

/-- Observable outcome of one `_execute_job` call: the `system_input` the
turn was invoked with (`none` when the turn was not invoked) and the job-row
effect. -/
structure JobOutcome where
  turn_input : Option String
  effect : JobEffect
deriving DecidableEq

/-- Python `SchedulerWorker._execute_job` (scheduler.py).  `cron_next` models the
external `croniter(expr, now).get_next` call (croniter is a third-party
dependency, not repository code); `run_result` is the awaited `Mico.run`
outcome, which the body swallows.  A `none` result models an exception
escaping to `_tick` (a recurring job with no cron expression). -/
def _execute_job (cron_next : String → Nat → Nat) (now : Nat)
    (agent_row : Option AgentRecord) (run_result : Except String String)
    (job : ScheduledJobRecord) : Option JobOutcome :=
  match agent_row with
  | none => some ⟨none, JobEffect.delete_job⟩
  | some a =>
    if a.status = "deleted" then some ⟨none, JobEffect.delete_job⟩
    else if job.job_type = "once" then
      some ⟨some job.instruction, JobEffect.update_job none "completed" now⟩
    else
      match job.cron_expr with
      | none => none
      | some expr =>
        some ⟨some job.instruction, JobEffect.update_job (some (cron_next expr now)) "active" now⟩

/-- The `event_metadata` dict of `Mico._run_locked` (agent.py): the turn
metadata plus the channel/chat/sender entries whose values are truthy
(present and non-empty). -/
def eventMetadata (metadata : List (String × String))
    (channel chat_id sender_id : Option String) : List (String × String) :=
  metadata
    ++ (match channel with
        | some c => if c = "" then [] else [("channel", c)]
        | none => [])
    ++ (match chat_id with
        | some c => if c = "" then [] else [("chat_id", c)]
        | none => [])
    ++ (match sender_id with
        | some c => if c = "" then [] else [("sender_id", c)]
        | none => [])

/-- One `storage.add_message` call made by `Mico._run_locked` (the shared
`agent_id` and `timestamp = now` arguments are omitted). -/
structure SavedMessage where
  role : String
  content : String
  metadata : List (String × String)
deriving DecidableEq

/-- The local `_save` closure of `Mico._run_locked` (agent.py): persist
`text.strip()` under `role` iff `text` is present and non-blank. -/
def _save (event_metadata : List (String × String)) (role : String) (text : Option String) :
    List SavedMessage :=
  match text with
  | none => []
  | some t => if isBlank t then [] else [⟨role, t.trim, event_metadata⟩]

/-- The persistence step of `Mico._run_locked` (agent.py): the three `_save`
calls in program order — system turn, user turn, then the assistant result,
the latter passed as `content if content.strip() else None`. -/
def persist_turn_messages (metadata : List (String × String))
    (channel chat_id sender_id : Option String)
    (system_input user_input : Option String) (content : String) : List SavedMessage :=
  let md := eventMetadata metadata channel chat_id sender_id
  _save md "system" system_input ++ _save md "user" user_input
    ++ _save md "assistant" (if isBlank content then none else some content)

/-- Blankness of an optional turn input: absent, or all-whitespace. -/
def blankOpt : Option String → Bool
  | none => true
  | some s => isBlank s

end Mico

namespace Mico

theorem logCost_cons (row : MessageRecord) (rows : List MessageRecord) :
    logCost (row :: rows) = msgCost row + logCost rows := by
  simp [logCost]

theorem selectGo_spec (B : Nat) (rem : List MessageRecord) :
    ∀ (acc : List MessageRecord) (total : Nat), total = logCost acc →
    (acc ≠ [] → logCost acc ≤ B ∨ acc.length = 1) →
    (∃ dropped, rem.reverse ++ acc = dropped ++ selectGo B rem acc total ∧
      ∀ x, dropped.getLast? = some x → B < msgCost x + logCost (selectGo B rem acc total)) ∧
    ((acc ≠ [] ∨ rem ≠ []) → selectGo B rem acc total ≠ []) ∧
    (2 ≤ (selectGo B rem acc total).length → logCost (selectGo B rem acc total) ≤ B) := by
  induction rem with
  | nil =>
    intro acc total htot hinv
    refine ⟨⟨[], by simp [selectGo], by simp⟩, ?_, ?_⟩
    · intro h
      simp only [selectGo]
      rcases h with h | h
      · exact h
      · exact absurd rfl h
    · intro h2
      simp only [selectGo] at h2 ⊢
      rcases hinv (by intro hn; simp [hn] at h2) with h | h
      · exact h
      · omega
  | cons row rest ih =>
    intro acc total htot hinv
    by_cases hc : acc ≠ [] ∧ B < total + msgCost row
    · have hsel : selectGo B (row :: rest) acc total = acc := by
        simp only [selectGo]
        rw [if_pos hc]
      rw [hsel]
      refine ⟨⟨(row :: rest).reverse, by simp, ?_⟩, ?_, ?_⟩
      · intro x hx
        have hlast : ((row :: rest).reverse).getLast? = some row := by
          simp [List.getLast?_reverse]
        rw [hlast] at hx
        cases hx
        omega
      · intro _; exact hc.1
      · intro h2
        rcases hinv hc.1 with h | h
        · exact h
        · omega
    · have hsel : selectGo B (row :: rest) acc total =
          selectGo B rest (row :: acc) (total + msgCost row) := by
        simp only [selectGo]
        rw [if_neg hc]
      have htot' : total + msgCost row = logCost (row :: acc) := by
        rw [logCost_cons]; omega
      have hinv' : (row :: acc) ≠ [] → logCost (row :: acc) ≤ B ∨ (row :: acc).length = 1 := by
        intro _
        by_cases hacc : acc = []
        · right; simp [hacc]
        · left
          have : ¬ B < total + msgCost row := by
            intro hlt; exact hc ⟨hacc, hlt⟩
          rw [logCost_cons, ← htot]
          omega
      obtain ⟨⟨dropped, hd1, hd2⟩, hne, hbound⟩ := ih (row :: acc) (total + msgCost row) htot' hinv'
      rw [hsel]
      refine ⟨⟨dropped, ?_, hd2⟩, ?_, hbound⟩
      · calc (row :: rest).reverse ++ acc = rest.reverse ++ (row :: acc) := by simp
          _ = dropped ++ selectGo B rest (row :: acc) (total + msgCost row) := hd1
      · intro _
        exact hne (Or.inl (by simp))

/-- C2: `select_recent_messages_for_context` returns a suffix of the
chronological log (the messages chosen walking newest→oldest), it is non-empty
whenever the log is, its total cost respects the budget except when a single
(the newest) message alone exceeds it, and the walk stopped exactly at the
first message that would have pushed the accumulated total over the budget. -/
theorem select_recent_messages_spec (rows : List MessageRecord) (B : Nat) :
    (∃ dropped, rows = dropped ++ select_recent_messages_for_context rows B ∧
      ∀ x, dropped.getLast? = some x →
        B < msgCost x + logCost (select_recent_messages_for_context rows B)) ∧
    (rows ≠ [] → select_recent_messages_for_context rows B ≠ []) ∧
    (2 ≤ (select_recent_messages_for_context rows B).length →
      logCost (select_recent_messages_for_context rows B) ≤ B) := by
  have h := selectGo_spec B rows.reverse [] 0 (by simp [logCost]) (by simp)
  obtain ⟨⟨dropped, hd1, hd2⟩, hne, hbound⟩ := h
  refine ⟨⟨dropped, ?_, hd2⟩, ?_, hbound⟩
  · simpa [select_recent_messages_for_context] using hd1
  · intro hrows
    exact hne (Or.inr (by simpa using hrows))

/-- Witness for C2 at a concrete log: a single message whose cost exceeds the
budget is still selected. -/
theorem select_recent_messages_spec_witness :
    select_recent_messages_for_context [⟨"id1", 0, "user", "hello"⟩] 2 ≠ [] :=
  (select_recent_messages_spec [⟨"id1", 0, "user", "hello"⟩] 2).2.1 (by decide)

theorem sum_drop_le_sum (l : List Nat) (m : Nat) : (l.drop m).sum ≤ l.sum := by
  have := List.sum_take_add_sum_drop l m
  omega

theorem sum_drop_anti (l : List Nat) {a b : Nat} (h : a ≤ b) :
    (l.drop b).sum ≤ (l.drop a).sum := by
  have h2 : l.drop b = (l.drop a).drop (b - a) := by
    rw [List.drop_drop]
    congr 1
    omega
  rw [h2]
  exact sum_drop_le_sum _ _

theorem tailLoop_spec (keep : Nat) (counts : List Nat) :
    ∀ (ts tt : Nat), ts ≤ counts.length → tt = (counts.drop ts).sum →
    ∀ r, r = tailLoop keep counts.length ((counts.take ts).reverse) ts tt →
    r.1 ≤ ts ∧ r.2 = (counts.drop r.1).sum ∧
      (r.1 = 0 ∨ keep < (counts.drop (r.1 - 1)).sum) := by
  intro ts
  induction ts with
  | zero =>
    intro tt _ htt r hr
    simp only [List.take_zero, List.reverse_nil, tailLoop] at hr
    subst hr
    exact ⟨Nat.le_refl 0, by simpa using htt, Or.inl rfl⟩
  | succ k ih =>
    intro tt hts htt r hr
    have hk : k < counts.length := hts
    have htake : counts.take (k+1) = counts.take k ++ [counts[k]] := by
      rw [List.take_succ, List.getElem?_eq_getElem hk]
      rfl
    have hrev : (counts.take (k+1)).reverse = counts[k] :: (counts.take k).reverse := by
      rw [htake, List.reverse_append]
      rfl
    have hdropk : counts.drop k = counts[k] :: counts.drop (k+1) := List.drop_eq_getElem_cons hk
    have hsumk : (counts.drop k).sum = counts[k] + (counts.drop (k+1)).sum := by
      rw [hdropk, List.sum_cons]
    rw [hrev] at hr
    by_cases hc : k + 1 < counts.length ∧ keep < tt + counts[k]
    · have hstop : tailLoop keep counts.length (counts[k] :: (counts.take k).reverse) (k+1) tt
          = (k+1, tt) := by
        simp only [tailLoop]
        rw [if_pos hc]
      rw [hstop] at hr
      subst hr
      refine ⟨Nat.le_refl _, by simpa using htt, Or.inr ?_⟩
      have h2 := hc.2
      rw [htt] at h2
      simp only [Nat.add_sub_cancel]
      omega
    · have hstep : tailLoop keep counts.length (counts[k] :: (counts.take k).reverse) (k+1) tt
          = tailLoop keep counts.length ((counts.take k).reverse) k (tt + counts[k]) := by
        simp only [tailLoop]
        rw [if_neg hc]
        simp only [Nat.add_sub_cancel]
      rw [hstep] at hr
      have htt' : tt + counts[k] = (counts.drop k).sum := by
        rw [hsumk, htt]
        omega
      obtain ⟨h1, h2, h3⟩ := ih (tt + counts[k]) (Nat.le_of_lt hk) htt' r hr
      exact ⟨Nat.le_trans h1 (Nat.le_succ k), h2, h3⟩

theorem find_tail_spec (counts : List Nat) (keep : Nat) :
    (_find_recent_tail_start counts keep).1 ≤ counts.length ∧
    (_find_recent_tail_start counts keep).2 =
      (counts.drop (_find_recent_tail_start counts keep).1).sum ∧
    ((_find_recent_tail_start counts keep).1 = 0 ∨
      keep < (counts.drop ((_find_recent_tail_start counts keep).1 - 1)).sum) ∧
    (counts ≠ [] → (_find_recent_tail_start counts keep).1 < counts.length) := by
  by_cases hne : counts = []
  · subst hne
    simp [_find_recent_tail_start]
  · have hlen : 0 < counts.length := List.length_pos.mpr hne
    have hn1 : counts.length - 1 < counts.length := by omega
    have hdrop1 : counts.drop (counts.length - 1) = [counts[counts.length - 1]] := by
      rw [List.drop_eq_getElem_cons hn1]
      congr 1
      exact List.drop_eq_nil_of_le (by omega)
    have hsplit : counts = counts.take (counts.length - 1) ++ [counts[counts.length - 1]] := by
      conv_lhs => rw [← List.take_append_drop (counts.length - 1) counts]
      rw [hdrop1]
    have hrev : counts.reverse
        = counts[counts.length - 1] :: (counts.take (counts.length - 1)).reverse := by
      conv_lhs => rw [hsplit]
      rw [List.reverse_append]
      rfl
    have hunfold : _find_recent_tail_start counts keep
        = tailLoop keep counts.length ((counts.take (counts.length - 1)).reverse)
            (counts.length - 1) (0 + counts[counts.length - 1]) := by
      unfold _find_recent_tail_start
      rw [if_neg (by simpa [List.isEmpty_iff] using hne), hrev]
      simp only [tailLoop]
      rw [if_neg (fun hcon => absurd hcon.1 (lt_irrefl counts.length))]
    have htt : 0 + counts[counts.length - 1] = (counts.drop (counts.length - 1)).sum := by
      rw [hdrop1]
      simp
    obtain ⟨h1, h2, h3⟩ := tailLoop_spec keep counts (counts.length - 1)
      (0 + counts[counts.length - 1]) (by omega) htt
      (_find_recent_tail_start counts keep) hunfold
    exact ⟨by omega, h2, h3, fun _ => by omega⟩

theorem tail_maximal (counts : List Nat) (keep k : Nat)
    (hsum : (counts.drop k).sum ≤ keep) :
    (_find_recent_tail_start counts keep).1 ≤ k := by
  obtain ⟨h1, h2, h3, _⟩ := find_tail_spec counts keep
  rcases h3 with h3 | h3
  · omega
  · by_contra hlt
    push_neg at hlt
    have hmono := sum_drop_anti counts
      (show k ≤ (_find_recent_tail_start counts keep).1 - 1 by omega)
    omega

theorem removalGo_spec (ttr : Nat) (l : List Nat) :
    ∀ (re ct : Nat), ∃ k, k ≤ l.length ∧
      removalGo ttr l re ct = (re + k, ct + (l.take k).sum) := by
  induction l with
  | nil =>
    intro re ct
    exact ⟨0, Nat.le_refl 0, by simp [removalGo]⟩
  | cons c rest ih =>
    intro re ct
    by_cases hc : ct < ttr
    · obtain ⟨k, hk, heq⟩ := ih (re + 1) (ct + c)
      refine ⟨k + 1, by simpa using Nat.succ_le_succ hk, ?_⟩
      simp only [removalGo]
      rw [if_pos hc, heq]
      simp only [List.take_succ_cons, List.sum_cons, Prod.mk.injEq]
      omega
    · refine ⟨0, Nat.zero_le _, ?_⟩
      simp [removalGo, hc]

theorem logCost_take_add_drop (rows : List MessageRecord) (k : Nat) :
    logCost (rows.take k) + logCost (rows.drop k) = logCost rows := by
  unfold logCost
  rw [List.map_take, List.map_drop]
  exact List.sum_take_add_sum_drop _ _

theorem compact_ok_inv (rows : List MessageRecord) (th tg kp ca : Nat)
    (e : CompactionEffects)
    (h : compact_conversation_if_needed rows th tg kp ca = Except.ok e) :
    e = compactCore rows th tg kp ca := by
  unfold compact_conversation_if_needed at h
  split at h
  · exact absurd h (by simp)
  · split at h
    · exact absurd h (by simp)
    · exact (Except.ok.injEq _ _ ▸ h).symm

/-- Case analysis of `compactCore`: either it is an observational no-op, or it
removed a non-empty prefix of `k` messages with `k` bounded by the protected
tail start, reporting the exact token arithmetic of the removed prefix. -/
theorem compactCore_spec (rows : List MessageRecord) (th tg kp ca : Nat) :
    ((compactCore rows th tg kp ca).remaining = rows ∧
     (compactCore rows th tg kp ca).deleted_message_ids = [] ∧
     (compactCore rows th tg kp ca).memory_upserted = false ∧
     (compactCore rows th tg kp ca).result.triggered = false ∧
     (compactCore rows th tg kp ca).result.total_tokens_after =
       (compactCore rows th tg kp ca).result.total_tokens_before) ∨
    (∃ k, 0 < k ∧ k ≤ (_find_recent_tail_start (rows.map msgCost) kp).1 ∧
      (compactCore rows th tg kp ca).remaining = rows.drop k ∧
      (compactCore rows th tg kp ca).deleted_message_ids = (rows.take k).map MessageRecord.id ∧
      (compactCore rows th tg kp ca).memory_upserted = true ∧
      (compactCore rows th tg kp ca).result.triggered = true ∧
      (compactCore rows th tg kp ca).result.total_tokens_before = logCost rows ∧
      (compactCore rows th tg kp ca).result.compacted_tokens = logCost (rows.take k) ∧
      (compactCore rows th tg kp ca).result.total_tokens_after
        = logCost rows - logCost (rows.take k)) := by
  cases rows with
  | nil =>
    left
    simp [compactCore]
  | cons a as =>
    by_cases hlt : ((a :: as).map msgCost).sum < th
    · left
      simp only [compactCore]
      rw [if_pos hlt]
      exact ⟨rfl, rfl, rfl, rfl, rfl⟩
    · obtain ⟨k, hk, hre⟩ := removalGo_spec (((a :: as).map msgCost).sum - tg)
        (((a :: as).map msgCost).take (_find_recent_tail_start ((a :: as).map msgCost) kp).1) 0 0
      have hklen : k ≤ (_find_recent_tail_start ((a :: as).map msgCost) kp).1 := by
        rw [List.length_take] at hk
        omega
      have htake2 : (((a :: as).map msgCost).take
            (_find_recent_tail_start ((a :: as).map msgCost) kp).1).take k
          = ((a :: as).map msgCost).take k := by
        rw [List.take_take]
        congr 1
        omega
      rw [htake2] at hre
      cases k with
      | zero =>
        left
        simp only [Nat.add_zero, Nat.zero_add, List.take_zero, List.sum_nil] at hre
        simp only [compactCore]
        rw [if_neg hlt, hre]
        refine ⟨rfl, rfl, rfl, rfl, rfl⟩
      | succ m =>
        right
        refine ⟨m + 1, Nat.succ_pos m, hklen, ?_⟩
        simp only [compactCore]
        rw [if_neg hlt, hre]
        simp only [Nat.zero_add, List.take_succ_cons]
        refine ⟨trivial, trivial, trivial, trivial, rfl, ?_, ?_⟩
        · rw [← List.take_succ_cons]
          simp only [logCost]
          rw [List.map_take]
        · rw [← List.take_succ_cons]
          simp only [logCost]
          rw [List.map_take]

/-- C1: no message of the protected tail is ever removed.  For any run of
`compact_conversation_if_needed` that returns (so in particular whenever
compaction triggers), every suffix of the log whose cumulative cost is at most
`keep_recent_tokens` — the protected tail is the longest such suffix — is still
a suffix of the remaining log: removal from the front stops strictly before
the tail even if the removal target was not met. -/
theorem compaction_preserves_protected_tail
    (rows : List MessageRecord) (th tg kp ca : Nat) (e : CompactionEffects)
    (h : compact_conversation_if_needed rows th tg kp ca = Except.ok e)
    (S : List MessageRecord) (hS : S <:+ rows) (hcost : logCost S ≤ kp) :
    S <:+ e.remaining := by
  have he := compact_ok_inv rows th tg kp ca e h
  subst he
  rcases compactCore_spec rows th tg kp ca with ⟨hrem, _⟩ | ⟨k, _, hk, hrem, _⟩
  · rw [hrem]
    exact hS
  · rw [hrem]
    have hSd := List.suffix_iff_eq_drop.mp hS
    have hsum : ((rows.map msgCost).drop (rows.length - S.length)).sum ≤ kp := by
      rw [← List.map_drop, ← hSd]
      exact hcost
    have htail := tail_maximal (rows.map msgCost) kp (rows.length - S.length) hsum
    rw [hSd]
    have hsplit : rows.drop (rows.length - S.length)
        = (rows.drop k).drop (rows.length - S.length - k) := by
      rw [List.drop_drop]
      congr 1
      omega
    rw [hsplit]
    exact List.drop_suffix _ _

/-- Witness for C1 at a concrete run (the empty suffix is within any keep
budget and survives). -/
theorem compaction_preserves_protected_tail_witness :
    [] <:+ (compactCore [(⟨"a", 0, "u", "x"⟩ : MessageRecord)] 1 1 1 0).remaining :=
  compaction_preserves_protected_tail [⟨"a", 0, "u", "x"⟩] 1 1 1 0 _ rfl []
    (by simp) (by decide)

/-- C3: whenever compaction triggers, the removed messages are exactly a
prefix of the ordered log (removed ++ kept = original log), the deleted ids
are exactly that prefix's ids, the reported totals satisfy
`total_tokens_after = total_tokens_before - compacted_tokens`, and the kept
suffix's cost is at most total cost minus removed cost. -/
theorem compaction_triggered_partition
    (rows : List MessageRecord) (th tg kp ca : Nat) (e : CompactionEffects)
    (h : compact_conversation_if_needed rows th tg kp ca = Except.ok e)
    (ht : e.result.triggered = true) :
    ∃ removed, rows = removed ++ e.remaining ∧
      e.deleted_message_ids = removed.map MessageRecord.id ∧
      e.result.compacted_tokens = logCost removed ∧
      e.result.total_tokens_before = logCost rows ∧
      e.result.total_tokens_after
        = e.result.total_tokens_before - e.result.compacted_tokens ∧
      logCost e.remaining ≤ e.result.total_tokens_before - e.result.compacted_tokens := by
  have he := compact_ok_inv rows th tg kp ca e h
  subst he
  rcases compactCore_spec rows th tg kp ca with ⟨_, _, _, hf, _⟩ | hright
  · rw [hf] at ht
    exact absurd ht (by simp)
  · obtain ⟨k, _, _, hrem, hdel, _, _, hbefore, hcomp, hafter⟩ := hright
    refine ⟨rows.take k, ?_, ?_, hcomp, hbefore, ?_, ?_⟩
    · rw [hrem, List.take_append_drop]
    · rw [hdel]
    · rw [hafter, hbefore, hcomp]
    · rw [hrem, hbefore, hcomp]
      have := logCost_take_add_drop rows k
      omega

/-- Witness for C3: a two-message log over the trigger threshold; the first
message is removed, and the reported totals balance. -/
theorem compaction_triggered_partition_witness :
    (compactCore [(⟨"a", 0, "user", "aaaaaaaa"⟩ : MessageRecord),
        ⟨"b", 1, "user", "aaaaaaaa"⟩] 10 10 7 0).result.total_tokens_after
      = (compactCore [(⟨"a", 0, "user", "aaaaaaaa"⟩ : MessageRecord),
          ⟨"b", 1, "user", "aaaaaaaa"⟩] 10 10 7 0).result.total_tokens_before
        - (compactCore [(⟨"a", 0, "user", "aaaaaaaa"⟩ : MessageRecord),
            ⟨"b", 1, "user", "aaaaaaaa"⟩] 10 10 7 0).result.compacted_tokens := by
  obtain ⟨removed, h1, h2, h3, h4, h5, h6⟩ := compaction_triggered_partition
    [⟨"a", 0, "user", "aaaaaaaa"⟩, ⟨"b", 1, "user", "aaaaaaaa"⟩] 10 10 7 0 _ rfl (by decide)
  exact h5

/-- C4: if the total cost of the log is strictly below `threshold_tokens`
(and the threshold arguments pass the `ValueError` guards), compaction is a
no-op: not triggered, no `delete_messages`, no `upsert_memory`,
`total_tokens_after = total_tokens_before`, and the log is untouched. -/
theorem compaction_below_threshold_noop
    (rows : List MessageRecord) (th tg kp ca : Nat)
    (h1 : th ≠ 0) (h2 : tg ≠ 0) (h3 : kp ≠ 0) (h4 : tg ≤ th)
    (hlt : logCost rows < th) :
    ∃ e, compact_conversation_if_needed rows th tg kp ca = Except.ok e ∧
      e.result.triggered = false ∧ e.deleted_message_ids = [] ∧
      e.memory_upserted = false ∧
      e.result.total_tokens_after = e.result.total_tokens_before ∧
      e.remaining = rows := by
  refine ⟨compactCore rows th tg kp ca, ?_, ?_⟩
  · unfold compact_conversation_if_needed
    rw [if_neg (by simp [h1, h2, h3]), if_neg (by omega)]
  · cases rows with
    | nil =>
      simp [compactCore]
    | cons a as =>
      have hlt' : ((a :: as).map msgCost).sum < th := hlt
      constructor
      · simp only [compactCore]
        rw [if_pos hlt']
      · refine ⟨?_, ?_, ?_, ?_⟩ <;>
          · simp only [compactCore]
            rw [if_pos hlt']

/-- Witness for C4 on a concrete small log. -/
theorem compaction_below_threshold_noop_witness :
    ∃ e, compact_conversation_if_needed [] 1 1 1 0 = Except.ok e ∧
      e.result.triggered = false ∧ e.deleted_message_ids = [] ∧
      e.memory_upserted = false ∧
      e.result.total_tokens_after = e.result.total_tokens_before ∧
      e.remaining = [] :=
  compaction_below_threshold_noop [] 1 1 1 0 (by decide) (by decide) (by decide)
    (by decide) (by decide)

/-- C10: compaction never empties the log and never deletes the newest
message: for a non-empty log the protected tail start computed by
`_find_recent_tail_start` is strictly inside the log (the tail always holds
at least the newest message, even when its cost alone exceeds
`keep_recent_tokens`), so after any run of `compact_conversation_if_needed`
the newest message is still present. -/
theorem compaction_keeps_newest
    (rows : List MessageRecord) (th tg kp ca : Nat) (e : CompactionEffects)
    (hne : rows ≠ [])
    (h : compact_conversation_if_needed rows th tg kp ca = Except.ok e) :
    (_find_recent_tail_start (rows.map msgCost) kp).1 < rows.length ∧
    e.remaining ≠ [] ∧
    ∃ m, rows.getLast? = some m ∧ m ∈ e.remaining := by
  have he := compact_ok_inv rows th tg kp ca e h
  subst he
  have hmne : rows.map msgCost ≠ [] := by simpa using hne
  have htail := (find_tail_spec (rows.map msgCost) kp).2.2.2 hmne
  rw [List.length_map] at htail
  have h0 : 0 < rows.length := List.length_pos.mpr hne
  have hidx : rows.length - 1 < rows.length := by omega
  have hdrop1 : rows.drop (rows.length - 1) = [rows[rows.length - 1]] := by
    rw [List.drop_eq_getElem_cons hidx]
    congr 1
    exact List.drop_eq_nil_of_le (by omega)
  have hglast : rows.getLast? = some rows[rows.length - 1] := by
    rw [List.getLast?_eq_getElem?, List.getElem?_eq_getElem hidx]
  refine ⟨htail, ?_, ?_⟩
  · rcases compactCore_spec rows th tg kp ca with ⟨hrem, _⟩ | ⟨k, _, hk, hrem, _⟩
    · rw [hrem]
      exact hne
    · rw [hrem]
      have : (rows.drop k).length = rows.length - k := List.length_drop k rows
      intro hcon
      rw [hcon] at this
      simp at this
      omega
  · refine ⟨rows[rows.length - 1], hglast, ?_⟩
    rcases compactCore_spec rows th tg kp ca with ⟨hrem, _⟩ | ⟨k, _, hk, hrem, _⟩
    · rw [hrem]
      exact List.getElem_mem hidx
    · rw [hrem]
      have hsuf : rows.drop (rows.length - 1) <:+ rows.drop k := by
        have hdd : rows.drop (rows.length - 1) = (rows.drop k).drop (rows.length - 1 - k) := by
          rw [List.drop_drop]
          congr 1
          omega
        rw [hdd]
        exact List.drop_suffix _ _
      apply hsuf.subset
      rw [hdrop1]
      simp

/-- Witness for C10 at a one-message log. -/
theorem compaction_keeps_newest_witness :
    (compactCore [(⟨"a", 0, "u", "x"⟩ : MessageRecord)] 1 1 1 0).remaining ≠ [] := by
  obtain ⟨_, h2, _⟩ := compaction_keeps_newest [⟨"a", 0, "u", "x"⟩] 1 1 1 0 _
    (by decide) rfl
  exact h2

theorem isBlank_append_false (s t : String) (hs : isBlank s = false) :
    isBlank (s ++ t) = false := by
  simp only [isBlank] at hs ⊢
  have hdata : (s ++ t).toList = s.toList ++ t.toList := String.data_append s t
  rw [hdata, List.all_append, hs]
  rfl

/-- C5: the worker's per-envelope execution never re-raises a turn failure
(it is total over both turn outcomes): a raised turn is converted to the
synthesized error string, which is never blank; whenever the result text is
non-blank it is published as an `OutboundMessage` addressed from the inbound
message; and an allocated, unresolved response slot is always resolved with
exactly the result text, so a `publish_inbound(wait_response=True)` caller
receives the turn's text (or the error string) and is never left hanging. -/
theorem process_envelope_spec (envelope : InboundEnvelope)
    (run_result : Except String String) :
    (∀ exc, run_result = Except.error exc →
      turn_response run_result = "Error while processing your message: " ++ exc ∧
      isBlank (turn_response run_result) = false) ∧
    (isBlank (turn_response run_result) = false →
      (_process_envelope envelope run_result).published
        = some ⟨envelope.message.agent_id, envelope.message.channel,
            envelope.message.chat_id, turn_response run_result⟩) ∧
    (isBlank (turn_response run_result) = true →
      (_process_envelope envelope run_result).published = none) ∧
    (envelope.has_response_future = true → envelope.response_future_done = false →
      (_process_envelope envelope run_result).future_set
        = some (turn_response run_result)) := by
  refine ⟨?_, ?_, ?_, ?_⟩
  · intro exc he
    subst he
    refine ⟨rfl, ?_⟩
    exact isBlank_append_false _ exc (by decide)
  · intro hb
    simp [_process_envelope, hb]
  · intro hb
    simp [_process_envelope, hb]
  · intro h1 h2
    simp [_process_envelope, h1, h2]

/-- Witness for C5: a raising turn still resolves the response future with
the synthesized error text. -/
theorem process_envelope_spec_witness :
    (_process_envelope ⟨"e1", ⟨"a1", "web", "s1", "c1", "hi"⟩, 0, true, false⟩
        (Except.error "boom")).future_set
      = some (turn_response (Except.error "boom")) :=
  (process_envelope_spec ⟨"e1", ⟨"a1", "web", "s1", "c1", "hi"⟩, 0, true, false⟩
      (Except.error "boom")).2.2.2 rfl rfl

/-- C6 counterexample: `TelegramChannelAdapter.send` performs no check on
`message.channel`.  An `OutboundMessage` whose channel is `web` (not the
adapter's `telegram`) but whose `agent_id` matches is delivered normally
instead of raising. -/
theorem telegram_send_ignores_channel_mismatch :
    TelegramChannelAdapter_send ⟨"agent-1", true⟩ ⟨"agent-1", "web", "chat-1", "hi"⟩
        = Except.ok [['h', 'i']] ∧
      ("web" : String) ≠ "telegram" := by
  constructor
  · rfl
  · decide

/-- C6 (amended): `TelegramChannelAdapter.send` verifies only that
`message.agent_id` matches the adapter's `agent_id`, raising on mismatch
instead of delivering; `message.channel` is not checked by the adapter, and
any successful delivery implies the agent ids matched and the adapter was
running. -/
theorem telegram_send_agent_check (adapter : TelegramAdapterState)
    (message : OutboundMessage) :
    (message.agent_id ≠ adapter.agent_id →
      TelegramChannelAdapter_send adapter message
        = Except.error ("Adapter agent mismatch (expected " ++ adapter.agent_id
            ++ ", got " ++ message.agent_id ++ ").")) ∧
    (∀ chunks, TelegramChannelAdapter_send adapter message = Except.ok chunks →
      message.agent_id = adapter.agent_id ∧ adapter.app_running = true ∧
      chunks = _split_message message.content.toList) := by
  constructor
  · intro hne
    unfold TelegramChannelAdapter_send
    rw [if_pos hne]
  · intro chunks h
    unfold TelegramChannelAdapter_send at h
    by_cases h1 : message.agent_id ≠ adapter.agent_id
    · rw [if_pos h1] at h
      exact absurd h (by simp)
    · rw [if_neg h1] at h
      push_neg at h1
      by_cases h2 : adapter.app_running = false
      · rw [if_pos h2] at h
        exact absurd h (by simp)
      · rw [if_neg h2] at h
        refine ⟨h1, by simpa using h2, ?_⟩
        exact (Except.ok.injEq _ _ ▸ h).symm

/-- Witness for the amended C6: a mismatching agent id raises. -/
theorem telegram_send_agent_check_witness :
    TelegramChannelAdapter_send ⟨"agent-1", true⟩ ⟨"agent-2", "telegram", "c", "x"⟩
      = Except.error ("Adapter agent mismatch (expected " ++ "agent-1"
          ++ ", got " ++ "agent-2" ++ ").") :=
  (telegram_send_agent_check ⟨"agent-1", true⟩ ⟨"agent-2", "telegram", "c", "x"⟩).1
    (by decide)

/-- C7: for every due job, `_execute_job` deletes the job without invoking
the turn when the owning agent is missing or deleted; otherwise it invokes
the turn with the job's instruction as system input and — independently of
whether the turn raised — advances the job: a `once` job to `completed` with
`next_run_at = none`, a recurring job to `active` with a cron-computed
`next_run_at` strictly after `now`; in both cases `last_run_at` is set to
`now`. -/
theorem execute_job_spec (cron_next : String → Nat → Nat) (now : Nat)
    (agent_row : Option AgentRecord) (run_result : Except String String)
    (job : ScheduledJobRecord)
    (hcron : ∀ expr t, t < cron_next expr t) :
    (agent_row = none →
      _execute_job cron_next now agent_row run_result job
        = some ⟨none, JobEffect.delete_job⟩) ∧
    (∀ a, agent_row = some a → a.status = "deleted" →
      _execute_job cron_next now agent_row run_result job
        = some ⟨none, JobEffect.delete_job⟩) ∧
    (∀ a, agent_row = some a → a.status ≠ "deleted" → job.job_type = "once" →
      _execute_job cron_next now agent_row run_result job
        = some ⟨some job.instruction, JobEffect.update_job none "completed" now⟩) ∧
    (∀ a expr, agent_row = some a → a.status ≠ "deleted" → job.job_type ≠ "once" →
      job.cron_expr = some expr →
      ∃ nxt, now < nxt ∧
        _execute_job cron_next now agent_row run_result job
          = some ⟨some job.instruction, JobEffect.update_job (some nxt) "active" now⟩) ∧
    (∀ r1 r2, _execute_job cron_next now agent_row r1 job
      = _execute_job cron_next now agent_row r2 job) := by
  refine ⟨?_, ?_, ?_, ?_, ?_⟩
  · intro h
    subst h
    rfl
  · intro a ha hs
    subst ha
    simp [_execute_job, hs]
  · intro a ha hs ht
    subst ha
    simp [_execute_job, hs, ht]
  · intro a expr ha hs ht hc
    subst ha
    refine ⟨cron_next expr now, hcron expr now, ?_⟩
    simp [_execute_job, hs, ht, hc]
  · intro r1 r2
    rfl

/-- Witness for C7: a due recurring job for a live agent is rescheduled
strictly after `now` even though the turn raised. -/
theorem execute_job_spec_witness :
    ∃ nxt, 5 < nxt ∧
      _execute_job (fun _ t => t + 60) 5 (some ⟨"a1", "n", "active"⟩)
          (Except.error "turn failed")
          ⟨"j1", "a1", "d", "do it", "recurring", some "* * * * *", 0, none, "active"⟩
        = some ⟨some "do it", JobEffect.update_job (some nxt) "active" 5⟩ :=
  (execute_job_spec (fun _ t => t + 60) 5 (some ⟨"a1", "n", "active"⟩)
      (Except.error "turn failed")
      ⟨"j1", "a1", "d", "do it", "recurring", some "* * * * *", 0, none, "active"⟩
      (fun _ t => Nat.lt_add_of_pos_right (by decide))).2.2.2.1
    ⟨"a1", "n", "active"⟩ "* * * * *" rfl (by decide) (by decide) rfl

theorem _save_roles (md : List (String × String)) (role : String) (text : Option String) :
    (_save md role text).map SavedMessage.role = if blankOpt text then [] else [role] := by
  cases text with
  | none => rfl
  | some t =>
    by_cases hb : isBlank t
    · simp [_save, blankOpt, hb]
    · simp [_save, blankOpt, hb]

theorem _save_mem (md : List (String × String)) (role : String) (text : Option String)
    (m : SavedMessage) (h : m ∈ _save md role text) :
    ∃ t, text = some t ∧ isBlank t = false ∧ m = ⟨role, t.trim, md⟩ := by
  cases text with
  | none => simp [_save] at h
  | some t =>
    by_cases hb : isBlank t
    · simp [_save, hb] at h
    · simp [_save, hb] at h
      exact ⟨t, rfl, by simpa using hb, h⟩

/-- C8: within a single turn, messages are persisted in the fixed order
system turn, user turn, assistant result; each of the three is persisted iff
its text is non-blank (a blank assistant result is never persisted); each
record carries the stripped text and the turn's event metadata (the
channel/chat/sender entries when available). -/
theorem persist_turn_spec (metadata : List (String × String))
    (channel chat_id sender_id : Option String)
    (system_input user_input : Option String) (content : String) :
    (persist_turn_messages metadata channel chat_id sender_id system_input user_input
        content).map SavedMessage.role
      = (if blankOpt system_input then [] else ["system"])
        ++ (if blankOpt user_input then [] else ["user"])
        ++ (if isBlank content then [] else ["assistant"]) ∧
    (∀ m ∈ persist_turn_messages metadata channel chat_id sender_id system_input
        user_input content,
      m.metadata = eventMetadata metadata channel chat_id sender_id) ∧
    (∀ m ∈ persist_turn_messages metadata channel chat_id sender_id system_input
        user_input content,
      m.role = "system" →
      ∃ s, system_input = some s ∧ isBlank s = false ∧ m.content = s.trim) ∧
    (∀ m ∈ persist_turn_messages metadata channel chat_id sender_id system_input
        user_input content,
      m.role = "user" →
      ∃ s, user_input = some s ∧ isBlank s = false ∧ m.content = s.trim) ∧
    (∀ m ∈ persist_turn_messages metadata channel chat_id sender_id system_input
        user_input content,
      m.role = "assistant" → isBlank content = false ∧ m.content = content.trim) := by
  refine ⟨?_, ?_, ?_, ?_, ?_⟩
  · simp only [persist_turn_messages, List.map_append, _save_roles]
    by_cases hb : isBlank content
    · simp [hb, blankOpt]
    · simp [hb, blankOpt]
  · intro m hm
    simp only [persist_turn_messages, List.mem_append] at hm
    rcases hm with (hm | hm) | hm <;>
      · obtain ⟨t, _, _, hmeq⟩ := _save_mem _ _ _ m hm
        rw [hmeq]
  · intro m hm hrole
    simp only [persist_turn_messages, List.mem_append] at hm
    rcases hm with (hm | hm) | hm
    · obtain ⟨t, hteq, htb, hmeq⟩ := _save_mem _ _ _ m hm
      exact ⟨t, hteq, htb, by rw [hmeq]⟩
    · obtain ⟨t, _, _, hmeq⟩ := _save_mem _ _ _ m hm
      rw [hmeq] at hrole
      simp at hrole
    · obtain ⟨t, _, _, hmeq⟩ := _save_mem _ _ _ m hm
      rw [hmeq] at hrole
      simp at hrole
  · intro m hm hrole
    simp only [persist_turn_messages, List.mem_append] at hm
    rcases hm with (hm | hm) | hm
    · obtain ⟨t, _, _, hmeq⟩ := _save_mem _ _ _ m hm
      rw [hmeq] at hrole
      simp at hrole
    · obtain ⟨t, hteq, htb, hmeq⟩ := _save_mem _ _ _ m hm
      exact ⟨t, hteq, htb, by rw [hmeq]⟩
    · obtain ⟨t, _, _, hmeq⟩ := _save_mem _ _ _ m hm
      rw [hmeq] at hrole
      simp at hrole
  · intro m hm hrole
    simp only [persist_turn_messages, List.mem_append] at hm
    rcases hm with (hm | hm) | hm
    · obtain ⟨t, _, _, hmeq⟩ := _save_mem _ _ _ m hm
      rw [hmeq] at hrole
      simp at hrole
    · obtain ⟨t, _, _, hmeq⟩ := _save_mem _ _ _ m hm
      rw [hmeq] at hrole
      simp at hrole
    · obtain ⟨t, hteq, htb, hmeq⟩ := _save_mem _ _ _ m hm
      by_cases hb : isBlank content
      · rw [if_pos hb] at hteq
        exact absurd hteq (by simp)
      · rw [if_neg hb] at hteq
        injection hteq with hteq2
        subst hteq2
        exact ⟨by simpa using hb, by rw [hmeq]⟩

/-- Witness for C8: a user-only turn with a blank assistant result persists
exactly one user record carrying the event metadata. -/
theorem persist_turn_spec_witness :
    (⟨"user", String.trim "hi", eventMetadata [] none none none⟩ : SavedMessage).metadata
      = eventMetadata [] none none none :=
  (persist_turn_spec [] none none none none (some "hi") "").2.1
    ⟨"user", String.trim "hi", eventMetadata [] none none none⟩
    (by
      have h1 : isBlank "hi" = false := by decide
      have h2 : isBlank "" = true := by decide
      simp [persist_turn_messages, _save, h1, h2])

theorem rfindGo_lt (c : Char) : ∀ (l : List Char) (base j : Nat),
    rfindGo l c base = some j → j < base + l.length := by
  intro l
  induction l with
  | nil =>
    intro base j h
    simp [rfindGo] at h
  | cons a rest ih =>
    intro base j h
    simp only [rfindGo] at h
    cases hrec : rfindGo rest c (base + 1) with
    | some j2 =>
      rw [hrec] at h
      injection h with hj
      have := ih (base + 1) j2 hrec
      simp only [List.length_cons]
      omega
    | none =>
      rw [hrec] at h
      by_cases hac : a = c
      · rw [if_pos hac] at h
        injection h with hj
        simp only [List.length_cons]
        omega
      · rw [if_neg hac] at h
        exact absurd h (by simp)

theorem rfind_lt (l : List Char) (c : Char) (j : Nat) (h : rfind l c = some j) :
    j < l.length := by
  have := rfindGo_lt c l 0 j h
  omega

theorem cutPoint_pos (cand : List Char) (m : Nat) (hm : 1 ≤ m) :
    1 ≤ cutPoint cand m := by
  unfold cutPoint
  cases rfind cand '\n' with
  | some i =>
    dsimp only
    split
    · exact hm
    · omega
  | none =>
    dsimp only
    cases rfind cand ' ' with
    | some i =>
      dsimp only
      split
      · exact hm
      · omega
    | none => exact hm

theorem cutPoint_le (cand : List Char) (m : Nat) (hlen : cand.length ≤ m) :
    cutPoint cand m ≤ m := by
  unfold cutPoint
  cases hn : rfind cand '\n' with
  | some i =>
    dsimp only
    split
    · exact Nat.le_refl m
    · have := rfind_lt cand '\n' i hn
      omega
  | none =>
    dsimp only
    cases hs : rfind cand ' ' with
    | some i =>
      dsimp only
      split
      · exact Nat.le_refl m
      · have := rfind_lt cand ' ' i hs
        omega
    | none => exact Nat.le_refl m

theorem rfindGo_none_char (c : Char) : ∀ (l : List Char) (base : Nat),
    rfindGo l c base = none → ∀ p, p < l.length → l[p]? ≠ some c := by
  intro l
  induction l with
  | nil =>
    intro base _ p hp
    simp at hp
  | cons a rest ih =>
    intro base h p hp
    simp only [rfindGo] at h
    cases hrec : rfindGo rest c (base + 1) with
    | some j2 =>
      rw [hrec] at h
      exact absurd h (by simp)
    | none =>
      rw [hrec] at h
      by_cases hac : a = c
      · rw [if_pos hac] at h
        exact absurd h (by simp)
      · rw [if_neg hac] at h
        cases p with
        | zero => simpa using hac
        | succ q =>
          have := ih (base + 1) hrec q (by simpa using hp)
          simpa using this

theorem rfindGo_some_char (c : Char) : ∀ (l : List Char) (base j : Nat),
    rfindGo l c base = some j →
    base ≤ j ∧ j - base < l.length ∧ l[j - base]? = some c ∧
      ∀ p, j - base < p → p < l.length → l[p]? ≠ some c := by
  intro l
  induction l with
  | nil =>
    intro base j h
    simp [rfindGo] at h
  | cons a rest ih =>
    intro base j h
    simp only [rfindGo] at h
    cases hrec : rfindGo rest c (base + 1) with
    | some j2 =>
      rw [hrec] at h
      injection h with hj
      subst hj
      obtain ⟨h1, h2, h3, h4⟩ := ih (base + 1) j2 hrec
      have hidx : j2 - base = (j2 - (base + 1)) + 1 := by omega
      refine ⟨by omega, ?_, ?_, ?_⟩
      · simp only [List.length_cons]
        omega
      · rw [hidx]
        simpa using h3
      · intro p hp hpl
        have hp0 : p ≠ 0 := by omega
        obtain ⟨q, rfl⟩ := Nat.exists_eq_succ_of_ne_zero hp0
        have := h4 q (by omega) (by simpa using hpl)
        simpa using this
    | none =>
      rw [hrec] at h
      by_cases hac : a = c
      · rw [if_pos hac] at h
        injection h with hj
        subst hj
        refine ⟨Nat.le_refl _, by simp, ?_, ?_⟩
        · simp [Nat.sub_self, hac]
        · intro p hp hpl
          have hp0 : p ≠ 0 := by omega
          obtain ⟨q, rfl⟩ := Nat.exists_eq_succ_of_ne_zero hp0
          have := rfindGo_none_char c rest (base + 1) hrec q (by simpa using hpl)
          simpa using this
      · rw [if_neg hac] at h
        exact absurd h (by simp)

theorem natMax?_eq_some_iff (l : List Nat) (a : Nat) :
    l.max? = some a ↔ a ∈ l ∧ ∀ b ∈ l, b ≤ a :=
  List.max?_eq_some_iff (fun x => Nat.le_refl x) (fun x y => max_choice x y)
    (fun _ _ _ => Nat.max_le)

theorem lastIndexOfChar_none_char (w : List Char) (c : Char)
    (h : lastIndexOfChar w c = none) : ∀ p, p < w.length → w[p]? ≠ some c := by
  intro p hp hpc
  unfold lastIndexOfChar at h
  rw [List.max?_eq_none_iff] at h
  have hmem : p ∈ (List.range w.length).filter (fun i => w[i]? == some c) := by
    simp [List.mem_filter, List.mem_range, hp, hpc]
  rw [h] at hmem
  simp at hmem

theorem lastIndexOfChar_some_char (w : List Char) (c : Char) (i : Nat)
    (h : lastIndexOfChar w c = some i) :
    i < w.length ∧ w[i]? = some c ∧ ∀ p, p < w.length → w[p]? = some c → p ≤ i := by
  unfold lastIndexOfChar at h
  rw [natMax?_eq_some_iff] at h
  obtain ⟨hmem, hmax⟩ := h
  simp only [List.mem_filter, List.mem_range, beq_iff_eq] at hmem
  refine ⟨hmem.1, hmem.2, ?_⟩
  intro p hp hpc
  exact hmax p (by simp [List.mem_filter, List.mem_range, hp, hpc])

theorem rfind_eq_lastIndexOfChar (w : List Char) (c : Char) :
    rfind w c = lastIndexOfChar w c := by
  cases hr : rfind w c with
  | some i =>
    obtain ⟨_, h2, h3, h4⟩ := rfindGo_some_char c w 0 i hr
    simp only [Nat.sub_zero] at h2 h3 h4
    cases hl : lastIndexOfChar w c with
    | some i2 =>
      obtain ⟨g1, g2, g3⟩ := lastIndexOfChar_some_char w c i2 hl
      have hle1 : i ≤ i2 := g3 i h2 h3
      have hle2 : ¬ i < i2 := fun hlt => (h4 i2 hlt g1) g2
      have : i = i2 := by omega
      rw [this]
    | none =>
      exact absurd h3 (lastIndexOfChar_none_char w c hl i h2)
  | none =>
    cases hl : lastIndexOfChar w c with
    | some i2 =>
      obtain ⟨g1, g2, _⟩ := lastIndexOfChar_some_char w c i2 hl
      exact absurd g2 (rfindGo_none_char c w 0 hr i2 g1)
    | none => rfl

theorem cutPoint_eq_specCutPoint (w : List Char) (limit : Nat) :
    cutPoint w limit = specCutPoint w limit := by
  unfold cutPoint specCutPoint
  rw [rfind_eq_lastIndexOfChar, rfind_eq_lastIndexOfChar]

theorem splitLoop_chunks : ∀ (n : Nat) (rem : List Char), rem.length ≤ n →
    ∀ chunk ∈ splitLoop rem, chunk.length ≤ telegram_max_len ∧ chunk <:+: rem := by
  intro n
  induction n with
  | zero =>
    intro rem h chunk hc
    have hnil : rem = [] := List.eq_nil_of_length_eq_zero (by omega)
    subst hnil
    rw [splitLoop] at hc
    simp at hc
  | succ n ih =>
    intro rem h chunk hc
    rw [splitLoop] at hc
    by_cases h0 : rem = []
    · rw [dif_pos h0] at hc
      simp at hc
    · rw [dif_neg h0] at hc
      by_cases h1 : rem.length ≤ telegram_max_len
      · rw [dif_pos h1] at hc
        simp at hc
        subst hc
        exact ⟨h1, List.infix_rfl⟩
      · rw [dif_neg h1] at hc
        rcases List.mem_cons.mp hc with hc | hc
        · subst hc
          constructor
          · have hcle : cutPoint (rem.take telegram_max_len) telegram_max_len
                ≤ telegram_max_len :=
              cutPoint_le _ _ (by rw [List.length_take]; omega)
            rw [List.length_take]
            omega
          · have hp : rem.take (cutPoint (rem.take telegram_max_len) telegram_max_len)
                <+: rem :=
              ⟨rem.drop (cutPoint (rem.take telegram_max_len) telegram_max_len),
                List.take_append_drop _ _⟩
            exact hp.isInfix
        · have hcut : 1 ≤ cutPoint (rem.take telegram_max_len) telegram_max_len :=
            cutPoint_pos _ _ (by decide)
          have hwl : ((rem.drop
                (cutPoint (rem.take telegram_max_len) telegram_max_len)).dropWhile
                  Char.isWhitespace).length
              ≤ (rem.drop (cutPoint (rem.take telegram_max_len) telegram_max_len)).length :=
            (List.dropWhile_suffix Char.isWhitespace).length_le
          have hdl := List.length_drop
            (cutPoint (rem.take telegram_max_len) telegram_max_len) rem
          obtain ⟨hl, hinf⟩ := ih _ (by omega) chunk hc
          refine ⟨hl, ?_⟩
          have hsuf : ((rem.drop
                (cutPoint (rem.take telegram_max_len) telegram_max_len)).dropWhile
                  Char.isWhitespace) <:+ rem :=
            (List.dropWhile_suffix Char.isWhitespace).trans (List.drop_suffix _ _)
          exact hinf.trans hsuf.isInfix

theorem splitLoop_eq_specSplitGo : ∀ (n : Nat) (rem : List Char), rem.length ≤ n →
    splitLoop rem = specSplitGo rem := by
  intro n
  induction n with
  | zero =>
    intro rem h
    have hnil : rem = [] := List.eq_nil_of_length_eq_zero (by omega)
    subst hnil
    rw [splitLoop, specSplitGo, dif_pos rfl, dif_pos rfl]
  | succ n ih =>
    intro rem h
    rw [splitLoop, specSplitGo]
    by_cases h0 : rem = []
    · rw [dif_pos h0, dif_pos h0]
    · rw [dif_neg h0, dif_neg h0]
      by_cases h1 : rem.length ≤ 4000
      · have h1a : rem.length ≤ telegram_max_len := h1
        rw [dif_pos h1a, dif_pos h1]
      · have h1a : ¬ rem.length ≤ telegram_max_len := h1
        rw [dif_neg h1a, dif_neg h1]
        have htm : telegram_max_len = 4000 := rfl
        rw [htm, cutPoint_eq_specCutPoint]
        congr 1
        apply ih
        have hcut : 1 ≤ specCutPoint (rem.take 4000) 4000 := by
          rw [← cutPoint_eq_specCutPoint]
          exact cutPoint_pos _ _ (by decide)
        have hw : (((rem.drop (specCutPoint (rem.take 4000) 4000)).dropWhile
              Char.isWhitespace).length)
            ≤ (rem.drop (specCutPoint (rem.take 4000) 4000)).length :=
          (List.dropWhile_suffix Char.isWhitespace).length_le
        have hd := List.length_drop (specCutPoint (rem.take 4000) 4000) rem
        omega

theorem splitLoop_cover : ∀ (n : Nat) (rem : List Char), rem.length ≤ n →
    ∃ seps, seps.length = (splitLoop rem).length ∧
      (∀ s ∈ seps, s.all Char.isWhitespace = true) ∧
      (List.zipWith (fun chunk sep => chunk ++ sep) (splitLoop rem) seps).flatten
        = rem := by
  intro n
  induction n with
  | zero =>
    intro rem h
    have hnil : rem = [] := List.eq_nil_of_length_eq_zero (by omega)
    subst hnil
    rw [splitLoop]
    exact ⟨[], by simp, by simp, by simp⟩
  | succ n ih =>
    intro rem h
    rw [splitLoop]
    by_cases h0 : rem = []
    · rw [dif_pos h0]
      exact ⟨[], by simp, by simp, by simp [h0]⟩
    · rw [dif_neg h0]
      by_cases h1 : rem.length ≤ telegram_max_len
      · rw [dif_pos h1]
        exact ⟨[[]], rfl, by simp, by simp⟩
      · rw [dif_neg h1]
        have hcut : 1 ≤ cutPoint (rem.take telegram_max_len) telegram_max_len :=
          cutPoint_pos _ _ (by decide)
        have hw : (((rem.drop
              (cutPoint (rem.take telegram_max_len) telegram_max_len)).dropWhile
                Char.isWhitespace).length)
            ≤ (rem.drop (cutPoint (rem.take telegram_max_len) telegram_max_len)).length :=
          (List.dropWhile_suffix Char.isWhitespace).length_le
        have hd := List.length_drop
          (cutPoint (rem.take telegram_max_len) telegram_max_len) rem
        obtain ⟨seps, hs1, hs2, hs3⟩ := ih
          ((rem.drop (cutPoint (rem.take telegram_max_len) telegram_max_len)).dropWhile
            Char.isWhitespace) (by omega)
        refine ⟨(rem.drop
            (cutPoint (rem.take telegram_max_len) telegram_max_len)).takeWhile
              Char.isWhitespace :: seps, by simp [hs1], ?_, ?_⟩
        · intro s hs
          rcases List.mem_cons.mp hs with hs | hs
          · subst hs
            rw [List.all_eq_true]
            intro x hx
            exact List.mem_takeWhile_imp hx
          · exact hs2 s hs
        · rw [List.zipWith_cons_cons, List.flatten_cons, hs3, List.append_assoc,
            List.takeWhile_append_dropWhile, List.take_append_drop]

theorem rfindGo_cons (a : Char) (rest : List Char) (c : Char) (i : Nat) :
    rfindGo (a :: rest) c i
      = match rfindGo rest c (i + 1) with
        | some j => some j
        | none => if a = c then some i else none := rfl

theorem rfindGo_replicate : ∀ (n base : Nat),
    rfindGo (List.replicate n 'a') '\n' base = none := by
  intro n
  induction n with
  | zero =>
    intro base
    rfl
  | succ k ih =>
    intro base
    rw [List.replicate_succ]
    simp only [rfindGo, ih]
    rw [if_neg (by decide)]

/-- C9 (amended): outbound text of length at most 4000 characters (including
the empty string) is returned as a single chunk equal to the input.  Longer
text is returned as ordered chunks, each of length at most 4000 and each a
contiguous slice of the input, which — interleaved with the all-whitespace
separators stripped at the cut boundaries — reassemble the input exactly;
and the splitter coincides with the spec-side `specSplitMessage`, whose
every cut point is the last newline of the window when it sits at a
positive index, else (only when the window holds no newline at all) the
last space when at a positive index, else the hard cut at the limit. -/
theorem split_message_spec (content : List Char) :
    (content.length ≤ 4000 → _split_message content = [content]) ∧
    (∀ chunk ∈ _split_message content, chunk.length ≤ 4000 ∧ chunk <:+: content) ∧
    _split_message content = specSplitMessage content ∧
    (∃ seps, seps.length = (_split_message content).length ∧
      (∀ s ∈ seps, s.all Char.isWhitespace = true) ∧
      (List.zipWith (fun chunk sep => chunk ++ sep) (_split_message content) seps).flatten
        = content) := by
  refine ⟨?_, ?_, ?_, ?_⟩
  · intro h
    unfold _split_message
    rw [if_pos (by simpa [telegram_max_len] using h)]
  · intro chunk hc
    unfold _split_message at hc
    by_cases h : content.length ≤ telegram_max_len
    · rw [if_pos h] at hc
      simp at hc
      subst hc
      exact ⟨by simpa [telegram_max_len] using h, List.infix_rfl⟩
    · rw [if_neg h] at hc
      have := splitLoop_chunks content.length content (Nat.le_refl _) chunk hc
      exact ⟨by simpa [telegram_max_len] using this.1, this.2⟩
  · unfold _split_message specSplitMessage
    by_cases h : content.length ≤ 4000
    · have ha : content.length ≤ telegram_max_len := h
      rw [if_pos ha, if_pos h]
    · have ha : ¬ content.length ≤ telegram_max_len := h
      rw [if_neg ha, if_neg h]
      exact splitLoop_eq_specSplitGo content.length content (Nat.le_refl _)
  · unfold _split_message
    by_cases h : content.length ≤ telegram_max_len
    · rw [if_pos h]
      exact ⟨[[]], rfl, by simp, by simp⟩
    · rw [if_neg h]
      exact splitLoop_cover content.length content (Nat.le_refl _)

/-- C9 counterexample to the claim's literal cut rule: for the
4001-character text `'\n'` followed by 4000 `'a'`s, the last (and only)
newline of the 4000-character window sits at index 0, so cutting at the
last newline before the limit would end the first chunk before that newline
and leave it empty; the code instead hard-cuts, producing a first chunk of
length 4000 that contains the newline (Python's `cut <= 0` guard). -/
theorem split_message_hard_cut_despite_newline :
    4000 < ('\n' :: List.replicate 4000 'a').length ∧
    (_split_message ('\n' :: List.replicate 4000 'a')).head?
      = some ('\n' :: List.replicate 3999 'a') ∧
    ('\n' :: List.replicate 3999 'a').length = 4000 := by
  have hwin : ('\n' :: List.replicate 4000 'a').take 4000
      = '\n' :: List.replicate 3999 'a' := by
    have h4 : (4000 : Nat) = 3999 + 1 := rfl
    rw [h4, List.take_succ_cons, List.take_replicate]
    congr 1
  have hrfind : rfind ('\n' :: List.replicate 3999 'a') '\n' = some 0 := by
    unfold rfind
    rw [rfindGo_cons, rfindGo_replicate]
    rfl
  have hcut : cutPoint ('\n' :: List.replicate 3999 'a') 4000 = 4000 := by
    unfold cutPoint
    rw [hrfind]
    rfl
  have hlen : ('\n' :: List.replicate 4000 'a').length = 4001 := by
    rw [List.length_cons, List.length_replicate]
  refine ⟨by omega, ?_, by rw [List.length_cons, List.length_replicate]⟩
  unfold _split_message
  rw [if_neg (by rw [hlen]; decide)]
  rw [splitLoop]
  rw [dif_neg (List.cons_ne_nil _ _)]
  rw [dif_neg (by rw [hlen]; decide)]
  have htm : telegram_max_len = 4000 := rfl
  rw [htm, hwin, hcut, hwin, List.head?_cons]

/-- Witness for C9: a short text is one chunk equal to itself. -/
theorem split_message_spec_witness :
    _split_message ['h', 'i'] = [['h', 'i']] :=
  (split_message_spec ['h', 'i']).1 (by decide)

end Mico
